import Mathlib

/-!
Shallow embedding of `danwue/elekter` (`src/main.rs`).

The program turns a daily electricity spot-price series into per-slot ON/OFF
decisions for configured devices:

* `add_grid_rate` (src/main.rs:123-136) adds a day or night grid rate to a
  price point depending on the local hour and weekday in the Tallinn timezone;
* `satisfy_constraints` (src/main.rs:138-187) computes the enabled-timestamp
  set for one device from the adjusted series: a threshold pass, a ratio-max
  cap pass and a ratio-min floor pass over sliding windows;
* `fetch_prices` (src/main.rs:109-121) validates the market response, and
  `main` (src/main.rs:189-269) runs the day loop.

Modelling conventions:

* `NotNan<f32>` prices and ratios are modelled as `ℚ` (the spec's data model
  calls them reals); `f32::floor`/`ceil` followed by the saturating `as usize`
  cast become integer floor/ceiling with `Int.toNat` (which clamps negatives
  to `0`, like the saturating cast).
* `DateTime<Utc>` timestamps are epoch seconds, `Int`; the `as usize` cast of
  an `i64` is the bit reinterpretation `x mod 2^64`.
* Rust panics (integer division by zero at src/main.rs:150/153/170/173,
  `slice::windows(0)` at src/main.rs:156/176) are modelled by `Option`:
  `none` is a panic.
* The timezone conversion `with_timezone(&Tallinn)` is an external collaborator
  (chrono-tz); it is abstracted as a function from a timestamp to the local
  hour and ISO weekday number used by the source.
* `BTreeSet<DateTime<Utc>>` is a duplicate-free `List Int` built with
  `List.insert` (insert if absent, like `BTreeSet::insert`) and `List.erase`
  (like `BTreeSet::remove` on a duplicate-free list); every claim about the
  enabled set is stated through membership or counting, never through the
  iteration order, which the source never relies on either.
-/

namespace Elekter

/-- A price point: epoch-second timestamp and (adjusted) price.
Mirrors `struct Price` at src/main.rs:94-98. -/
structure Price where
  timestamp : Int
  price : ℚ
deriving DecidableEq, Repr

instance : Inhabited Price := ⟨⟨0, 0⟩⟩

/-- The grid package day/night rates, `struct Package` at src/main.rs:100-103. -/
structure Package where
  day : ℚ
  night : ℚ

/-- A device configuration, `struct Device` at src/main.rs:71-81.
`window` is the duration in whole seconds (`Duration::as_secs`).
The command lists are carried along but never read by the solver. -/
structure Device where
  threshold : Option ℚ
  ratio_min : Option ℚ
  ratio_max : Option ℚ
  window : Option Nat
  cmd_on : List String
  cmd_off : List String

/-- The local-time data the source reads off the Tallinn-converted timestamp:
`hour()` (0-23) and `weekday().number_from_monday()` (1-7), src/main.rs:124-127. -/
structure LocalTime where
  hour : Nat
  number_from_monday : Nat

/-- The day/night grid-rate selection of src/main.rs:126-131:
`(7..22).contains(&hour) && number_from_monday < 6`. -/
def current_grid (lt : LocalTime) (package : Package) : ℚ :=
  if 7 ≤ lt.hour ∧ lt.hour < 22 ∧ lt.number_from_monday < 6 then package.day
  else package.night

/-- `add_grid_rate` at src/main.rs:123-136. `tz` abstracts the external
timezone conversion of the point's timestamp to Tallinn local time. -/
def add_grid_rate (tz : Int → LocalTime) (price : Price) (package : Package) :
    Price :=
  { price with price := price.price + current_grid (tz price.timestamp) package }

/-- The `i64 as usize` bit-reinterpreting cast on a 64-bit target. -/
def usizeCast (x : Int) : Nat := (x % (2 ^ 64 : Int)).toNat

/-- `⌊q * n⌋` computed on the numerator and denominator with integer
floor division; models `(ratio * window_size as f32).floor()` at
src/main.rs:155. -/
def floorMulNat (q : ℚ) (n : Nat) : Int := Int.fdiv (q.num * n) q.den

/-- `⌈q * n⌉` computed on the numerator and denominator with integer
floor division; models `(ratio * window_size as f32).ceil()` at
src/main.rs:175. -/
def ceilMulNat (q : ℚ) (n : Nat) : Int := -(Int.fdiv (-(q.num * n)) q.den)

/-- The comparison `sorted_by_key(|p| p.price)` sorts by
(src/main.rs:159/179). -/
def priceLe (a b : Price) : Bool := a.price ≤ b.price

/-- Stable insertion of a point into a list already sorted by price: the new
point goes before every strictly more expensive point and before later points
of equal price, preserving chronological order on ties. -/
def insertByPrice (p : Price) : List Price → List Price
  | [] => [p]
  | q :: qs => if q.price < p.price then q :: insertByPrice p qs else p :: q :: qs

/-- Stable sort by price ascending, modelling itertools `sorted_by_key`
(a stable sort) at src/main.rs:159/179. -/
def sortByPrice : List Price → List Price
  | [] => []
  | p :: ps => insertByPrice p (sortByPrice ps)

/-- `slice::windows(k)` for `k ≥ 1` (src/main.rs:156/176): all contiguous
sub-slices of length `k`, empty when `k` exceeds the length. -/
def listWindows (xs : List Price) (k : Nat) : List (List Price) :=
  (List.range (xs.length + 1 - k)).map fun i => (xs.drop i).take k

/-- The shared interval/window-size computation of src/main.rs:148-154 and
168-174: `interval = (last.timestamp - first.timestamp) as usize / (len - 1)`,
then `window.map(|dur| dur.as_secs() as usize / interval).unwrap_or(len)`.
`none` models the division-by-zero panics: `len - 1 = 0` for a one-point
series, and `interval = 0` when a window duration is divided by it. -/
def windowSizeOf (prices : List Price) (window : Option Nat) : Option Nat :=
  if prices.length ≤ 1 then none
  else
    let interval :=
      usizeCast ((prices.getLastD default).timestamp -
        (prices.headD default).timestamp) / (prices.length - 1)
    match window with
    | none => some prices.length
    | some dur => if interval = 0 then none else some (dur / interval)

/-- The threshold pass of src/main.rs:140-146: insert the timestamp of every
point with `price <= threshold`. -/
def threshold_pass (prices : List Price) (threshold : ℚ) : List Int :=
  (prices.filter fun p => p.price ≤ threshold).foldl
    (fun s p => s.insert p.timestamp) []

/-- The ratio-max cap pass of src/main.rs:147-165: for every sliding window,
remove every slot ranked (by price, stable) beyond
`floor(ratio_max * window_size)`. `none` models the panics of the
interval computation and of `windows(0)`. -/
def ratioMaxPass (prices : List Price) (ratio_max : ℚ) (window : Option Nat)
    (enabled : List Int) : Option (List Int) :=
  match windowSizeOf prices window with
  | none => none
  | some ws =>
    if ws = 0 then none
    else
      let cap := (floorMulNat ratio_max ws).toNat
      some ((listWindows prices ws).foldl
        (fun acc w => ((sortByPrice w).drop cap).foldl
          (fun s p => s.erase p.timestamp) acc) enabled)

/-- The ratio-min floor pass of src/main.rs:167-185: for every sliding window,
insert the `ceil(ratio_min * window_size)` cheapest slots (stable order).
`none` models the panics of the interval computation and of `windows(0)`. -/
def ratioMinPass (prices : List Price) (ratio_min : ℚ) (window : Option Nat)
    (enabled : List Int) : Option (List Int) :=
  match windowSizeOf prices window with
  | none => none
  | some ws =>
    if ws = 0 then none
    else
      let need := (ceilMulNat ratio_min ws).toNat
      some ((listWindows prices ws).foldl
        (fun acc w => ((sortByPrice w).take need).foldl
          (fun s p => s.insert p.timestamp) acc) enabled)

/-- `satisfy_constraints` at src/main.rs:138-187: threshold pass, then the
ratio-max cap pass (only when a threshold is set), then the ratio-min floor
pass. `none` models a panic. -/
def satisfy_constraints (prices : List Price) (device : Device) :
    Option (List Int) :=
  let afterThreshold : Option (List Int) :=
    match device.threshold with
    | none => some []
    | some t =>
      match device.ratio_max with
      | none => some (threshold_pass prices t)
      | some rmax => ratioMaxPass prices rmax device.window (threshold_pass prices t)
  match afterThreshold with
  | none => none
  | some s2 =>
    match device.ratio_min with
    | none => some s2
    | some rmin => ratioMinPass prices rmin device.window s2

/-- The market response, `struct PriceResponse`/`Data` at src/main.rs:83-92:
a success flag and the (possibly empty, before validation) `ee` price list. -/
structure PriceResponse where
  success : Bool
  ee : List Price

/-- `fetch_prices` at src/main.rs:109-121, after the HTTP exchange: a response
whose `ee` list is empty fails `NonEmpty` deserialization (`.json()?`), and
then `validate()?` requires `success` to be true. -/
def fetch_prices (resp : PriceResponse) : Except String (List Price) :=
  if resp.ee.isEmpty then Except.error "empty price list"
  else if resp.success then Except.ok resp.ee
  else Except.error "success must be true"

/-- One iteration of the day loop of `main` (src/main.rs:195-229) up to the
solving step: fetch (propagating its error with `?`), adjust every point with
the grid rate, then solve the constraints of every device. -/
def process_day (resp : PriceResponse) (tz : Int → LocalTime) (package : Package)
    (devices : List Device) : Except String (List (Option (List Int))) :=
  match fetch_prices resp with
  | Except.error e => Except.error e
  | Except.ok market_prices =>
    let consumer_prices := market_prices.map fun p => add_grid_rate tz p package
    Except.ok (devices.map fun d => satisfy_constraints consumer_prices d)

/-! ### Floor/ceiling bridges

`floorMulNat`/`ceilMulNat` compute on numerator and denominator; these lemmas
identify them with the mathematical floor and ceiling of `q * n`. -/

theorem floorMulNat_eq (q : ℚ) (n : Nat) : floorMulNat q n = ⌊q * n⌋ := by
  have hden : ((q.den : ℚ)) ≠ 0 := by positivity
  have hq : q * n = ((q.num * n : ℤ) : ℚ) / ((q.den : ℕ) : ℚ) := by
    rw [eq_div_iff hden]
    push_cast
    rw [mul_comm q (n : ℚ), mul_assoc, Rat.mul_den_eq_num]
    ring
  rw [floorMulNat, Int.fdiv_eq_ediv _ (by positivity), hq,
    Rat.floor_intCast_div_natCast]

theorem ceilMulNat_eq (q : ℚ) (n : Nat) : ceilMulNat q n = ⌈q * n⌉ := by
  have h := floorMulNat_eq (-q) n
  rw [floorMulNat, Rat.neg_num, Rat.neg_den, neg_mul] at h
  rw [ceilMulNat, h, neg_mul, Int.floor_neg, neg_neg]

/-! ### The stable sort: permutation facts -/

theorem perm_insertByPrice (p : Price) (l : List Price) :
    (insertByPrice p l).Perm (p :: l) := by
  induction l with
  | nil => simp [insertByPrice]
  | cons q qs ih =>
    rw [insertByPrice]
    by_cases h : q.price < p.price
    · simp only [if_pos h]
      exact (ih.cons q).trans (List.Perm.swap p q qs)
    · simp [if_neg h]

theorem perm_sortByPrice (l : List Price) : (sortByPrice l).Perm l := by
  induction l with
  | nil => simp [sortByPrice]
  | cons p ps ih => exact (perm_insertByPrice p (sortByPrice ps)).trans (ih.cons p)

theorem mem_sortByPrice {p : Price} {l : List Price} :
    p ∈ sortByPrice l ↔ p ∈ l :=
  (perm_sortByPrice l).mem_iff

theorem length_sortByPrice (l : List Price) :
    (sortByPrice l).length = l.length :=
  (perm_sortByPrice l).length_eq

/-! ### Sliding windows -/

theorem mem_listWindows {xs : List Price} {k : Nat} {w : List Price} :
    w ∈ listWindows xs k ↔
      ∃ i, i < xs.length + 1 - k ∧ w = (xs.drop i).take k := by
  simp only [listWindows, List.mem_map, List.mem_range]
  constructor
  · rintro ⟨i, hi, rfl⟩; exact ⟨i, hi, rfl⟩
  · rintro ⟨i, hi, rfl⟩; exact ⟨i, hi, rfl⟩

theorem sublist_of_mem_listWindows {xs : List Price} {k : Nat} {w : List Price}
    (h : w ∈ listWindows xs k) : List.Sublist w xs := by
  obtain ⟨i, -, rfl⟩ := mem_listWindows.mp h
  exact (List.take_sublist k (xs.drop i)).trans (List.drop_sublist i xs)

theorem length_of_mem_listWindows {xs : List Price} {k : Nat} {w : List Price}
    (hk : k ≤ xs.length) (h : w ∈ listWindows xs k) : w.length = k := by
  obtain ⟨i, hi, rfl⟩ := mem_listWindows.mp h
  simp only [List.length_take, List.length_drop]
  omega

theorem listWindows_eq_nil {xs : List Price} {k : Nat} (h : xs.length < k) :
    listWindows xs k = [] := by
  simp [listWindows, Nat.sub_eq_zero_of_le h]

/-! ### Timestamp-fold lemmas

The three passes are folds inserting or erasing timestamps; these lemmas
characterise membership in the folded set. -/

theorem mem_insertTimestampsFold {l : List Price} {s : List Int} {x : Int} :
    x ∈ l.foldl (fun s p => s.insert p.timestamp) s ↔
      x ∈ s ∨ ∃ p ∈ l, p.timestamp = x := by
  induction l generalizing s with
  | nil => simp
  | cons p l ih =>
    rw [List.foldl_cons, ih]
    simp only [List.mem_insert_iff, List.mem_cons]
    constructor
    · rintro ((rfl | hs) | ⟨q, hq, rfl⟩)
      · exact Or.inr ⟨p, Or.inl rfl, rfl⟩
      · exact Or.inl hs
      · exact Or.inr ⟨q, Or.inr hq, rfl⟩
    · rintro (hs | ⟨q, (rfl | hq), rfl⟩)
      · exact Or.inl (Or.inr hs)
      · exact Or.inl (Or.inl rfl)
      · exact Or.inr ⟨q, hq, rfl⟩

theorem mem_eraseTimestampsFold {l : List Price} {s : List Int} {x : Int}
    (h : x ∈ l.foldl (fun s p => s.erase p.timestamp) s) : x ∈ s := by
  induction l generalizing s with
  | nil => exact h
  | cons p l ih => exact List.erase_subset p.timestamp s (ih h)

theorem mem_maxWindowFold {wl : List (List Price)} {cap : Nat} {s : List Int}
    {x : Int}
    (h : x ∈ wl.foldl (fun acc w => ((sortByPrice w).drop cap).foldl
      (fun s p => s.erase p.timestamp) acc) s) : x ∈ s := by
  induction wl generalizing s with
  | nil => exact h
  | cons w wl ih => exact mem_eraseTimestampsFold (ih h)

theorem mem_minWindowFold_of_mem {wl : List (List Price)} {need : Nat}
    {s : List Int} {x : Int} (h : x ∈ s) :
    x ∈ wl.foldl (fun acc w => ((sortByPrice w).take need).foldl
      (fun s p => s.insert p.timestamp) acc) s := by
  induction wl generalizing s with
  | nil => exact h
  | cons w wl ih => exact ih (mem_insertTimestampsFold.mpr (Or.inl h))

theorem mem_minWindowFold_of_take {wl : List (List Price)} {need : Nat}
    {s : List Int} {w : List Price} (hw : w ∈ wl) {p : Price}
    (hp : p ∈ (sortByPrice w).take need) :
    p.timestamp ∈ wl.foldl (fun acc w => ((sortByPrice w).take need).foldl
      (fun s p => s.insert p.timestamp) acc) s := by
  induction wl generalizing s with
  | nil => cases hw
  | cons w0 wl ih =>
    rw [List.foldl_cons]
    rcases List.mem_cons.mp hw with rfl | hw0
    · exact mem_minWindowFold_of_mem
        (mem_insertTimestampsFold.mpr (Or.inr ⟨p, hp, rfl⟩))
    · exact ih hw0

theorem mem_minWindowFold_cases {wl : List (List Price)} {need : Nat}
    {s : List Int} {x : Int}
    (h : x ∈ wl.foldl (fun acc w => ((sortByPrice w).take need).foldl
      (fun s p => s.insert p.timestamp) acc) s) :
    x ∈ s ∨ ∃ w ∈ wl, ∃ p ∈ w, p.timestamp = x := by
  induction wl generalizing s with
  | nil => exact Or.inl h
  | cons w wl ih =>
    rcases ih h with hs | ⟨w0, hw0, hp⟩
    · rcases mem_insertTimestampsFold.mp hs with hs | ⟨p, hp, rfl⟩
      · exact Or.inl hs
      · exact Or.inr ⟨w, List.mem_cons_self w wl,
          p, mem_sortByPrice.mp (List.mem_of_mem_take hp), rfl⟩
    · exact Or.inr ⟨w0, List.mem_cons_of_mem w hw0, hp⟩

/-! ### Membership in the threshold pass -/

theorem mem_threshold_pass {prices : List Price} {t : ℚ} {x : Int} :
    x ∈ threshold_pass prices t ↔
      ∃ p ∈ prices, p.price ≤ t ∧ p.timestamp = x := by
  rw [threshold_pass, mem_insertTimestampsFold]
  simp only [List.not_mem_nil, false_or, List.mem_filter, decide_eq_true_eq]
  tauto

/-! ### Pass-level facts -/

theorem ratioMaxPass_subset {prices : List Price} {rmax : ℚ} {win : Option Nat}
    {s0 s' : List Int} (h : ratioMaxPass prices rmax win s0 = some s') :
    ∀ x ∈ s', x ∈ s0 := by
  cases hws : windowSizeOf prices win with
  | none => simp [ratioMaxPass, hws] at h
  | some ws =>
    by_cases h0 : ws = 0
    · simp [ratioMaxPass, hws, h0] at h
    · simp only [ratioMaxPass, hws, if_neg h0, Option.some.injEq] at h
      subst h
      exact fun x hx => mem_maxWindowFold hx

theorem ratioMinPass_cases {prices : List Price} {rmin : ℚ} {win : Option Nat}
    {s0 s' : List Int} (h : ratioMinPass prices rmin win s0 = some s') :
    ∀ x ∈ s', x ∈ s0 ∨ ∃ p ∈ prices, p.timestamp = x := by
  cases hws : windowSizeOf prices win with
  | none => simp [ratioMinPass, hws] at h
  | some ws =>
    by_cases h0 : ws = 0
    · simp [ratioMinPass, hws, h0] at h
    · simp only [ratioMinPass, hws, if_neg h0, Option.some.injEq] at h
      subst h
      intro x hx
      rcases mem_minWindowFold_cases hx with hs | ⟨w, hw, p, hp, rfl⟩
      · exact Or.inl hs
      · exact Or.inr ⟨p, (sublist_of_mem_listWindows hw).mem hp, rfl⟩

/-! ### Uniformly spaced series -/

theorem headD_eq_getElem {l : List Price} (h : 0 < l.length) :
    l.headD default = l[0] := by
  rw [List.headD_eq_head?_getD, List.head?_eq_getElem?, List.getElem?_eq_getElem h]
  rfl

theorem getLastD_eq_getElem {l : List Price} (h : 0 < l.length) :
    l.getLastD default = l.get ⟨l.length - 1, by omega⟩ := by
  rw [List.getLastD_eq_getLast?, List.getLast?_eq_getElem?,
    List.getElem?_eq_getElem (by omega)]
  rfl

theorem timestamps_nodup_of_uniform {prices : List Price} (t0 : Int) (ι : Nat)
    (hι : 0 < ι)
    (hts : ∀ i (h : i < prices.length), prices[i].timestamp = t0 + (ι : Int) * i) :
    (prices.map Price.timestamp).Nodup := by
  have heq : prices.map Price.timestamp =
      (List.range prices.length).map (fun i : Nat => t0 + (ι : Int) * (i : Int)) := by
    apply List.ext_getElem (by simp)
    intro i h1 h2
    simp only [List.getElem_map, List.getElem_range]
    exact hts i (by simpa using h1)
  rw [heq]
  refine (List.nodup_range _).map ?_
  intro i j hij
  simp only at hij
  have : (ι : Int) * i = (ι : Int) * j := by linarith
  have hι' : (ι : Int) ≠ 0 := by exact_mod_cast hι.ne'
  exact_mod_cast mul_left_cancel₀ hι' this

theorem windowSizeOf_uniform {prices : List Price} (t0 : Int) (ι : Nat)
    (hι : 0 < ι) (h2 : 2 ≤ prices.length)
    (hts : ∀ i (h : i < prices.length), prices[i].timestamp = t0 + (ι : Int) * i)
    (hbound : (ι : Int) * (prices.length - 1) < 2 ^ 64) (d : Nat) :
    windowSizeOf prices (some d) = some (d / ι) := by
  have hne : prices ≠ [] := by
    intro h; rw [h] at h2; simp at h2
  have hlast : (prices.getLastD default).timestamp =
      t0 + (ι : Int) * ((prices.length - 1 : Nat) : Int) := by
    rw [getLastD_eq_getElem (by omega), List.get_eq_getElem]
    exact hts _ (by omega)
  have hhead : (prices.headD default).timestamp = t0 := by
    rw [headD_eq_getElem (by omega)]
    have := hts 0 (by omega)
    simpa using this
  have hcast : ((prices.length - 1 : Nat) : Int) = (prices.length : Int) - 1 := by
    omega
  have hdiff : (prices.getLastD default).timestamp -
      (prices.headD default).timestamp = (ι : Int) * ((prices.length - 1 : Nat) : Int) := by
    rw [hlast, hhead]; ring
  have hmod : usizeCast ((prices.getLastD default).timestamp -
      (prices.headD default).timestamp) = ι * (prices.length - 1) := by
    rw [usizeCast, hdiff, Int.emod_eq_of_lt (by positivity) (by rw [hcast]; exact hbound)]
    omega
  have hdivcancel : ι * (prices.length - 1) / (prices.length - 1) = ι :=
    Nat.mul_div_cancel ι (by omega)
  rw [windowSizeOf, if_neg (by omega)]
  simp only [hmod, hdivcancel, if_neg hι.ne']

/-! ### Counting enabled slots inside a window -/

theorem count_enabled_of_take {w : List Price} {s : List Int} {tn : List Price}
    (hsub : List.Sublist tn (sortByPrice w))
    (hnd : (w.map Price.timestamp).Nodup)
    (hmem : ∀ p ∈ tn, p.timestamp ∈ s) :
    tn.length ≤ (w.filter (fun p => decide (p.timestamp ∈ s))).length := by
  have hwnd : w.Nodup := hnd.of_map
  have hsortnd : (sortByPrice w).Nodup := (perm_sortByPrice w).nodup_iff.mpr hwnd
  have htnnd : tn.Nodup := hsortnd.sublist hsub
  have hsubset : tn ⊆ w.filter (fun p => decide (p.timestamp ∈ s)) := by
    intro p hp
    rw [List.mem_filter]
    exact ⟨mem_sortByPrice.mp (hsub.subset hp), by simpa using hmem p hp⟩
  exact (htnnd.subperm hsubset).length_le

/-- Extracting the final ratio-min fold from a successful run of
`satisfy_constraints` on a device with `ratio_min` set: whatever the earlier
passes produced, the result is the min-pass fold over some start set. -/
theorem satisfy_constraints_min_fold {prices : List Price} {device : Device}
    {rmin : ℚ} {s : List Int}
    (hmin : device.ratio_min = some rmin)
    (hsat : satisfy_constraints prices device = some s) :
    ∃ s2, ratioMinPass prices rmin device.window s2 = some s := by
  obtain ⟨th, rmi, rma, win, c1, c2⟩ := device
  simp only at hmin
  subst hmin
  cases th with
  | none => exact ⟨[], by simpa [satisfy_constraints] using hsat⟩
  | some t =>
    cases rma with
    | none => exact ⟨threshold_pass prices t, by simpa [satisfy_constraints] using hsat⟩
    | some rmax =>
      cases hmp : ratioMaxPass prices rmax win (threshold_pass prices t) with
      | none => simp [satisfy_constraints, hmp] at hsat
      | some s2 => exact ⟨s2, by simpa [satisfy_constraints, hmp] using hsat⟩

/-- C2: for every chronologically ordered, uniformly spaced price series and
every device with `ratio_min` set whose derived window size `ws` satisfies
`1 ≤ ws ≤ length`, the final enabled set of `satisfy_constraints` (after both
ratio passes) contains, in every window of `ws` consecutive slots, at least
`ceil(ratio_min * ws)` of that window's (distinct) timestamps. -/
theorem ratio_min_guarantee
    (prices : List Price) (device : Device) (t0 : Int) (ι ws : Nat) (rmin : ℚ)
    (s : List Int)
    (hι : 0 < ι)
    (hts : ∀ i (h : i < prices.length), prices[i].timestamp = t0 + (ι : Int) * i)
    (hmin : device.ratio_min = some rmin) (hr1 : rmin ≤ 1)
    (hws : windowSizeOf prices device.window = some ws)
    (hws1 : 1 ≤ ws) (hwsl : ws ≤ prices.length)
    (hsat : satisfy_constraints prices device = some s) :
    ∀ w ∈ listWindows prices ws,
      (⌈rmin * (ws : ℚ)⌉).toNat ≤
        (w.filter (fun p => decide (p.timestamp ∈ s))).length := by
  obtain ⟨s2, hmin_eq⟩ := satisfy_constraints_min_fold hmin hsat
  simp only [ratioMinPass, hws, if_neg (by omega : ¬ ws = 0),
    Option.some.injEq] at hmin_eq
  intro w hw
  have hwlen : w.length = ws := length_of_mem_listWindows hwsl hw
  have hneed_le : (ceilMulNat rmin ws).toNat ≤ ws := by
    have h1 : ceilMulNat rmin ws = ⌈rmin * (ws : ℚ)⌉ := ceilMulNat_eq rmin ws
    have hmul : rmin * (ws : ℚ) ≤ ((ws : ℚ)) := by
      calc rmin * (ws : ℚ) ≤ 1 * (ws : ℚ) :=
            mul_le_mul_of_nonneg_right hr1 (by positivity)
        _ = (ws : ℚ) := one_mul _
    have h2 : ⌈rmin * (ws : ℚ)⌉ ≤ ⌈((ws : ℚ))⌉ := Int.ceil_le_ceil hmul
    rw [Int.ceil_natCast] at h2
    omega
  have htn_len : ((sortByPrice w).take (ceilMulNat rmin ws).toNat).length =
      (ceilMulNat rmin ws).toNat := by
    rw [List.length_take, length_sortByPrice, hwlen]
    omega
  have hnd : (w.map Price.timestamp).Nodup :=
    (timestamps_nodup_of_uniform t0 ι hι hts).sublist
      ((sublist_of_mem_listWindows hw).map Price.timestamp)
  have hmem : ∀ p ∈ (sortByPrice w).take (ceilMulNat rmin ws).toNat,
      p.timestamp ∈ s := by
    intro p hp
    rw [← hmin_eq]
    exact mem_minWindowFold_of_take hw hp
  have hcount := count_enabled_of_take
    (List.take_sublist (ceilMulNat rmin ws).toNat (sortByPrice w)) hnd hmem
  rw [htn_len, ceilMulNat_eq] at hcount
  exact hcount

/-! ### Concrete inputs used by the witnesses

The four-point hourly series `[10, 5, 8, 2]` of the spec's scenarios A and B
(timestamps 0, 3600, 7200, 10800), and the devices of those scenarios. -/

def series4 : List Price :=
  [⟨0, mkRat 10 1⟩, ⟨3600, mkRat 5 1⟩, ⟨7200, mkRat 8 1⟩, ⟨10800, mkRat 2 1⟩]

/-- Scenario B device: `ratio_min = 1/2`, `window = 2h`, no threshold. -/
def devB : Device := ⟨none, some (mkRat 1 2), none, some 7200, ["on"], ["off"]⟩

/-- Scenario A device: `threshold = 6`, `ratio_max = 1/2`, `window = 2h`. -/
def devA : Device :=
  ⟨some (mkRat 6 1), none, some (mkRat 1 2), some 7200, ["on"], ["off"]⟩

/-- A threshold-only device with `threshold = 6`. -/
def devT : Device := ⟨some (mkRat 6 1), none, none, none, ["on"], ["off"]⟩

/-- Witness for C2 at scenario B: series `[10,5,8,2]`, `ratio_min = 1/2`,
window size 2, returned set `{3600, 10800}`; instantiated at the first
window `[10, 5]`, which must contain at least `ceil(1/2 * 2) = 1` of them. -/
theorem ratio_min_guarantee_witness :
    (⌈mkRat 1 2 * ((2 : Nat) : ℚ)⌉).toNat ≤
      (([⟨0, mkRat 10 1⟩, ⟨3600, mkRat 5 1⟩] : List Price).filter
        (fun p => decide (p.timestamp ∈ ([10800, 3600] : List Int)))).length :=
  ratio_min_guarantee series4 devB 0 3600 2 (mkRat 1 2) [10800, 3600]
    (by decide) (by decide) rfl (by decide) (by decide) (by decide) (by decide)
    (by decide) [⟨0, mkRat 10 1⟩, ⟨3600, mkRat 5 1⟩] (by decide)

/-- C3: a device with a threshold and neither ratio returns exactly the set of
timestamps of points with adjusted price at most the threshold (inclusive). -/
theorem threshold_only_exact
    (prices : List Price) (device : Device) (t : ℚ)
    (hth : device.threshold = some t)
    (hmin : device.ratio_min = none) (hmax : device.ratio_max = none) :
    satisfy_constraints prices device = some (threshold_pass prices t) ∧
      ∀ x, x ∈ threshold_pass prices t ↔
        ∃ p ∈ prices, p.price ≤ t ∧ p.timestamp = x := by
  obtain ⟨th, rmi, rma, win, c1, c2⟩ := device
  simp only at hth hmin hmax
  subst hth; subst hmin; subst hmax
  exact ⟨by simp [satisfy_constraints], fun x => mem_threshold_pass⟩

/-- Witness for C3 on the scenario series with threshold 6. -/
theorem threshold_only_exact_witness :
    satisfy_constraints series4 devT = some (threshold_pass series4 (mkRat 6 1)) ∧
      ∀ x, x ∈ threshold_pass series4 (mkRat 6 1) ↔
        ∃ p ∈ series4, p.price ≤ mkRat 6 1 ∧ p.timestamp = x :=
  threshold_only_exact series4 devT (mkRat 6 1) rfl rfl rfl

/-- C4: every timestamp in a successfully returned enabled set is the
timestamp of some point of the input series. -/
theorem enabled_subset_series
    (prices : List Price) (device : Device) (s : List Int)
    (hsat : satisfy_constraints prices device = some s) :
    ∀ x ∈ s, ∃ p ∈ prices, p.timestamp = x := by
  have hth_sub : ∀ t x, x ∈ threshold_pass prices t →
      ∃ p ∈ prices, p.timestamp = x := by
    intro t x hx
    obtain ⟨p, hp, -, rfl⟩ := mem_threshold_pass.mp hx
    exact ⟨p, hp, rfl⟩
  have hmin_sub : ∀ rmin win s0 s', ratioMinPass prices rmin win s0 = some s' →
      (∀ x ∈ s0, ∃ p ∈ prices, p.timestamp = x) →
      ∀ x ∈ s', ∃ p ∈ prices, p.timestamp = x := by
    intro rmin win s0 s' h h0 x hx
    rcases ratioMinPass_cases h x hx with hs | ⟨p, hp, rfl⟩
    · exact h0 x hs
    · exact ⟨p, hp, rfl⟩
  obtain ⟨th, rmi, rma, win, c1, c2⟩ := device
  cases th with
  | none =>
    cases rmi with
    | none =>
      simp only [satisfy_constraints, Option.some.injEq] at hsat
      subst hsat
      intro x hx
      cases hx
    | some rmin =>
      have h : ratioMinPass prices rmin win [] = some s := by
        simpa [satisfy_constraints] using hsat
      exact hmin_sub rmin win [] s h (by intro x hx; cases hx)
  | some t =>
    cases rma with
    | none =>
      cases rmi with
      | none =>
        simp only [satisfy_constraints, Option.some.injEq] at hsat
        subst hsat
        exact hth_sub t
      | some rmin =>
        have h : ratioMinPass prices rmin win (threshold_pass prices t) = some s := by
          simpa [satisfy_constraints] using hsat
        exact hmin_sub rmin win _ s h (hth_sub t)
    | some rmax =>
      cases hmp : ratioMaxPass prices rmax win (threshold_pass prices t) with
      | none => simp [satisfy_constraints, hmp] at hsat
      | some s2 =>
        have hs2 : ∀ x ∈ s2, ∃ p ∈ prices, p.timestamp = x := fun x hx =>
          hth_sub t x (ratioMaxPass_subset hmp x hx)
        cases rmi with
        | none =>
          have : s2 = s := by simpa [satisfy_constraints, hmp] using hsat
          subst this
          exact hs2
        | some rmin =>
          have h : ratioMinPass prices rmin win s2 = some s := by
            simpa [satisfy_constraints, hmp] using hsat
          exact hmin_sub rmin win s2 s h hs2

/-- Witness for C4 on the scenario series and device A, instantiated at the
enabled timestamp 3600. -/
theorem enabled_subset_series_witness :
    ∃ p ∈ series4, p.timestamp = (3600 : Int) :=
  enabled_subset_series series4 devA [10800, 3600] (by decide) 3600 (by decide)

/-- C6: with threshold and ratio-max both set, the set after the ratio-max cap
pass is a subset of the threshold pass's set — it only removes timestamps. -/
theorem ratio_max_only_shrinks
    (prices : List Price) (device : Device) (t rmax : ℚ) (s' : List Int)
    (_hth : device.threshold = some t) (_hmax : device.ratio_max = some rmax)
    (hmp : ratioMaxPass prices rmax device.window (threshold_pass prices t) =
      some s') :
    ∀ x ∈ s', x ∈ threshold_pass prices t :=
  ratioMaxPass_subset hmp

/-- Witness for C6 at scenario A, instantiated at the surviving timestamp
10800. -/
theorem ratio_max_only_shrinks_witness :
    (10800 : Int) ∈ threshold_pass series4 (mkRat 6 1) :=
  ratio_max_only_shrinks series4 devA (mkRat 6 1) (mkRat 1 2) [10800, 3600]
    rfl rfl (by decide) 10800 (by decide)

/-- C5: when the derived window size exceeds the series length there are no
sliding windows, both ratio passes are identities, and the result is the
threshold-only set (empty without a threshold). -/
theorem oversized_window_noop
    (prices : List Price) (device : Device) (ws : Nat)
    (hws : windowSizeOf prices device.window = some ws)
    (hgt : prices.length < ws) :
    satisfy_constraints prices device =
      some (device.threshold.elim [] (threshold_pass prices)) := by
  obtain ⟨th, rmi, rma, win, c1, c2⟩ := device
  simp only at hws
  have hnil : listWindows prices ws = [] := listWindows_eq_nil hgt
  have hws0 : ¬ ws = 0 := by omega
  have hmaxid : ∀ rmax s0, ratioMaxPass prices rmax win s0 = some s0 := by
    intro rmax s0
    simp [ratioMaxPass, hws, hws0, hnil]
  have hminid : ∀ rmin s0, ratioMinPass prices rmin win s0 = some s0 := by
    intro rmin s0
    simp [ratioMinPass, hws, hws0, hnil]
  cases th <;> cases rmi <;> cases rma <;>
    simp [satisfy_constraints, Option.elim, hmaxid, hminid]

/-- Witness for C5: a two-hour-window device on the scenario series asked for
a 24-hour window (window size 24 > 4). -/
theorem oversized_window_noop_witness :
    satisfy_constraints series4
        ⟨some (mkRat 6 1), some (mkRat 1 2), some (mkRat 1 2), some 86400,
          ["on"], ["off"]⟩ =
      some ((some (mkRat 6 1)).elim [] (threshold_pass series4)) :=
  oversized_window_noop series4
    ⟨some (mkRat 6 1), some (mkRat 1 2), some (mkRat 1 2), some 86400,
      ["on"], ["off"]⟩ 24 (by decide) (by decide)

/-- C7: the adjusted price is the raw price plus `package.day` exactly when
the local hour is in `[7,22)` and the weekday number from Monday is below 6
(Monday through Friday), and plus `package.night` otherwise; in particular
hour 10 on a Wednesday (weekday 3) gets the day rate and hour 23 on a
Saturday (weekday 6) gets the night rate. -/
theorem grid_rate_selection (tz : Int → LocalTime) (p : Price) (pkg : Package) :
    (add_grid_rate tz p pkg).price =
      p.price + (if 7 ≤ (tz p.timestamp).hour ∧ (tz p.timestamp).hour < 22 ∧
        (tz p.timestamp).number_from_monday < 6 then pkg.day else pkg.night) ∧
    (add_grid_rate (fun _ => ⟨10, 3⟩) p pkg).price = p.price + pkg.day ∧
    (add_grid_rate (fun _ => ⟨23, 6⟩) p pkg).price = p.price + pkg.night := by
  refine ⟨rfl, ?_, ?_⟩ <;> simp [add_grid_rate, current_grid]

/-- C10: the grid-rate adjustment changes only the price field; the adjusted
series has exactly the timestamps of the raw series, in the same order. -/
theorem adjust_preserves_timestamps (tz : Int → LocalTime) (pkg : Package) :
    (∀ p : Price, (add_grid_rate tz p pkg).timestamp = p.timestamp) ∧
    ∀ prices : List Price,
      (prices.map (fun p => add_grid_rate tz p pkg)).map Price.timestamp =
        prices.map Price.timestamp := by
  refine ⟨fun p => rfl, fun prices => ?_⟩
  simp [List.map_map, Function.comp, add_grid_rate]

/-- C8: a false success flag or an empty price list makes `fetch_prices`
return an error, and the day loop propagates that same error instead of
adjusting or solving anything. -/
theorem failed_fetch_terminates
    (resp : PriceResponse) (tz : Int → LocalTime) (pkg : Package)
    (devices : List Device)
    (h : resp.success = false ∨ resp.ee = []) :
    ∃ e, fetch_prices resp = Except.error e ∧
      process_day resp tz pkg devices = Except.error e := by
  have herr : ∃ e, fetch_prices resp = Except.error e := by
    rcases h with h | h
    · by_cases he : resp.ee = []
      · exact ⟨"empty price list", by simp [fetch_prices, he]⟩
      · exact ⟨"success must be true",
          by simp [fetch_prices, List.isEmpty_iff, he, h]⟩
    · exact ⟨"empty price list", by simp [fetch_prices, h]⟩
  obtain ⟨e, he⟩ := herr
  exact ⟨e, he, by simp [process_day, he]⟩

/-- Witness for C8: a response with a false success flag. -/
theorem failed_fetch_terminates_witness :
    ∃ e, fetch_prices ⟨false, series4⟩ = Except.error e ∧
      process_day ⟨false, series4⟩ (fun _ => ⟨0, 7⟩) ⟨mkRat 40 10, mkRat 20 10⟩
        [devT] = Except.error e :=
  failed_fetch_terminates ⟨false, series4⟩ (fun _ => ⟨0, 7⟩)
    ⟨mkRat 40 10, mkRat 20 10⟩ [devT] (Or.inl rfl)

/-- C9: on a uniformly spaced multi-point series, a device whose window
duration is shorter than the sampling interval derives window size 0
(`dur / interval = 0`), and `satisfy_constraints` panics (returns `none`,
the model of the `slice::windows(0)` panic) whenever `ratio_min` is set or
both `threshold` and `ratio_max` are set. -/
theorem zero_window_panics
    (prices : List Price) (device : Device) (t0 : Int) (ι d : Nat)
    (hι : 0 < ι) (h2 : 2 ≤ prices.length)
    (hts : ∀ i (h : i < prices.length), prices[i].timestamp = t0 + (ι : Int) * i)
    (hbound : (ι : Int) * (prices.length - 1) < 2 ^ 64)
    (hwin : device.window = some d) (hd : d < ι)
    (hdev : (∃ r, device.ratio_min = some r) ∨
      ((∃ t, device.threshold = some t) ∧ ∃ r, device.ratio_max = some r)) :
    satisfy_constraints prices device = none := by
  have hws : windowSizeOf prices (some d) = some (d / ι) :=
    windowSizeOf_uniform t0 ι hι h2 hts hbound d
  rw [Nat.div_eq_of_lt hd] at hws
  obtain ⟨th, rmi, rma, win, c1, c2⟩ := device
  simp only at hwin
  subst hwin
  have hmax0 : ∀ rmax s0, ratioMaxPass prices rmax (some d) s0 = none := by
    intro rmax s0
    simp [ratioMaxPass, hws]
  have hmin0 : ∀ rmin s0, ratioMinPass prices rmin (some d) s0 = none := by
    intro rmin s0
    simp [ratioMinPass, hws]
  rcases hdev with ⟨r, hr⟩ | ⟨⟨t, ht⟩, r, hr⟩
  · simp only at hr
    subst hr
    cases th <;> cases rma <;> simp [satisfy_constraints, hmax0, hmin0]
  · simp only at ht hr
    subst ht
    subst hr
    cases rmi <;> simp [satisfy_constraints, hmax0]

/-- Witness for C9: the scenario series (hourly, interval 3600 s) with a
one-minute window and `ratio_min = 1/2`. -/
theorem zero_window_panics_witness :
    satisfy_constraints series4
      ⟨none, some (mkRat 1 2), none, some 60, ["on"], ["off"]⟩ = none :=
  zero_window_panics series4
    ⟨none, some (mkRat 1 2), none, some 60, ["on"], ["off"]⟩ 0 3600 60
    (by decide) (by decide) (by decide) (by decide) rfl (by decide)
    (Or.inl ⟨mkRat 1 2, rfl⟩)

/-- C1 fails on the code: for the one-point series the interval computation
divides by zero (`count - 1 = 0`) and the program panics; the model returns
`none` instead of the claimed normal return with `windowSize` treated as the
full series length. -/
theorem one_point_series_panics :
    satisfy_constraints [⟨0, mkRat 10 1⟩]
      ⟨none, some (mkRat 1 2), none, none, ["on"], ["off"]⟩ = none := by
  decide

end Elekter
